import Mathlib

/-!
Shallow embedding of the polygon containment engine of
`src/problems/problem9.rs` (the "warehouse region" puzzle solver), together
with proofs of the specified properties.

Conventions of the embedding:
* Rust `usize` coordinates are modelled as `Nat` (all arithmetic here is
  small and never wraps: only `abs_diff`, `+ 1`, `min`/`max` and `*` on
  inputs far below `2^64`, so `Nat` agrees with `usize`).
* A Rust abort (`unwrap`, the impossible-turn fatal branch) is modelled as
  `Option.none`; fallible functions return `Option`.
* Rust `HashSet` values are modelled by the underlying `List`: the sets are
  only consumed through `all`/membership tests, which are insensitive to
  duplication and order.
* Rust's `sort_by` is a stable sort.  A stable sort by a total preorder
  comparator is extensionally unique (the output permutation is determined:
  keys in order, ties by original position), so it is modelled by
  `List.insertionSort` with the same comparator, which is also stable.
* `solve` takes the already-parsed vertex list (the output of the source's
  `build_points`, a direct line-by-line `"x,y"` parse).
-/

namespace Problem9

/-- `struct Point { x: usize, y: usize }`. -/
structure Point where
  x : Nat
  y : Nat
deriving DecidableEq, Repr

instance : Inhabited Point := ⟨⟨0, 0⟩⟩

/-- `shared::Answer { part1: usize, part2: usize }`. -/
structure Answer where
  part1 : Nat
  part2 : Nat
deriving DecidableEq, Repr

/-- `struct Line { start: Point, end: Point }`.  The source field `end` is a
Lean keyword and is transcribed as `stop`. -/
structure Line where
  start : Point
  stop : Point
deriving DecidableEq, Repr

/-- `Line::points`: every integer lattice point on the segment.  A line with
equal endpoint x-coordinates is walked vertically (`min_y ..= max_y`),
otherwise horizontally at `start.y` (`min_x ..= max_x`). -/
def Line.points (l : Line) : List Point :=
  if l.start.x = l.stop.x then
    let min_y := min l.start.y l.stop.y
    let max_y := max l.start.y l.stop.y
    (List.range' min_y (max_y + 1 - min_y)).map (fun y => ⟨l.start.x, y⟩)
  else
    let min_x := min l.start.x l.stop.x
    let max_x := max l.start.x l.stop.x
    (List.range' min_x (max_x + 1 - min_x)).map (fun x => ⟨x, l.start.y⟩)

/-- `struct Rect { top_left: Point, bottom_right: Point, area: usize }`. -/
structure Rect where
  top_left : Point
  bottom_right : Point
  area : Nat
deriving DecidableEq, Repr

/-- `Rect::area`: `(abs_diff x + 1) * (abs_diff y + 1)` (inclusive extents).
Named `areaOf` because `area` is the field name. -/
def Rect.areaOf (top_left bottom_right : Point) : Nat :=
  (Nat.dist top_left.x bottom_right.x + 1) * (Nat.dist top_left.y bottom_right.y + 1)

/-- `Rect::new`. -/
def Rect.new (top_left bottom_right : Point) : Rect :=
  ⟨top_left, bottom_right, Rect.areaOf top_left bottom_right⟩

/-- `Rect::lines`: the four boundary segments, via the two implied corners. -/
def Rect.lines (r : Rect) : List Line :=
  let top_right : Point := ⟨r.bottom_right.x, r.top_left.y⟩
  let bottom_left : Point := ⟨r.top_left.x, r.bottom_right.y⟩
  [ ⟨r.top_left, top_right⟩, ⟨top_right, r.bottom_right⟩,
    ⟨r.bottom_right, bottom_left⟩, ⟨bottom_left, r.top_left⟩ ]

/-- `Rect::perimeter_points` (the source collects into a `HashSet`, which is
only consumed by `all`; the flat list has the same elements). -/
def Rect.perimeter_points (r : Rect) : List Point :=
  r.lines.flatMap Line.points

/-- `enum Direction`. -/
inductive Direction where
  | Up
  | Right
  | Down
  | Left
deriving DecidableEq, Repr

/-- `impl From<&Line> for Direction`.  Note the screen-coordinate convention:
growing y is `Down`. -/
def Direction.ofLine (line : Line) : Direction :=
  if line.start.x = line.stop.x then
    if line.stop.y > line.start.y then .Down else .Up
  else if line.stop.x > line.start.x then .Right
  else .Left

/-- The turn table inside `Polygon::new`'s `filter_map`:
`some true` = concave vertex (kept), `some false` = convex vertex (dropped),
`none` = the `Impossible turn encountered` fatal branch. -/
def turnConcave : Direction → Direction → Option Bool
  | .Right, .Down => some false
  | .Right, .Up => some true
  | .Down, .Left => some false
  | .Down, .Right => some true
  | .Left, .Down => some true
  | .Left, .Up => some false
  | .Up, .Left => some true
  | .Up, .Right => some false
  | _, _ => none

/-- `struct Polygon` (the `concave_vertices` `HashSet` is modelled by its
element list; it is only consumed by membership tests). -/
structure Polygon where
  borders : List Line
  concave_vertices : List Point
deriving DecidableEq, Repr

/-- itertools `tuple_windows` for pairs: consecutive overlapping pairs. -/
def windows2 {α : Type} : List α → List (α × α)
  | [] => []
  | [_] => []
  | a :: b :: rest => (a, b) :: windows2 (b :: rest)

/-- `tuple_windows` chained with the wrapping `(last, first)` pair — the
iteration shape used twice inside `Polygon::new` (on vertices to build the
border lines, and on border lines to classify turns).  The source unwraps
`last()`/`first()`, which cannot fail on the nonempty lists it is used on. -/
def cyclicPairs {α : Type} : List α → List (α × α)
  | [] => []
  | x :: xs => windows2 (x :: xs) ++ [((x :: xs).getLast (List.cons_ne_nil x xs), x)]

/-- The classification pass over consecutive border pairs: walks the pairs in
order, fails on the first impossible turn, and otherwise collects the vertices
(`first.end`) whose turn is concave. -/
def collectConcave : List (Line × Line) → Option (List Point)
  | [] => some []
  | (first, second) :: rest =>
    match turnConcave (Direction.ofLine first) (Direction.ofLine second) with
    | none => none
    | some concave =>
      match collectConcave rest with
      | none => none
      | some tail => some (if concave then first.stop :: tail else tail)

/-- `Polygon::new`: borders pair each vertex with its successor plus the
wrapping `last -> first` line; consecutive border pairs (with wrap) are turn
classified.  `none` models the panics: `last()/first().unwrap()` on an empty
vertex list, and the impossible-turn fatal branch. -/
def Polygon.new : List Point → Option Polygon
  | [] => none
  | p :: ps =>
    let borders := (cyclicPairs (p :: ps)).map (fun ab => Line.mk ab.1 ab.2)
    match collectConcave (cyclicPairs borders) with
    | none => none
    | some cv => some ⟨borders, cv⟩

/-- The `intersecting_borders` candidate list inside `point_in_bounds`:
vertical borders, at or left of the point (`point.x >= b.start.x`), whose
y-span contains `point.y` — transcribed as the same three chained filters. -/
def intersecting_borders (point : Point) (polygon : Polygon) : List Line :=
  ((polygon.borders.filter
      (fun b => decide (b.start.x = b.stop.x))).filter
      (fun b => decide (point.x ≥ b.start.x))).filter
      (fun b =>
        let mn := min b.start.y b.stop.y
        let mx := max b.start.y b.stop.y
        decide (point.y ≥ mn) && decide (point.y ≤ mx))

/-- `point_in_bounds`: even-odd ray casting from the left, with boundary
inclusion and the concave-vertex crossing correction. -/
def point_in_bounds (point : Point) (polygon : Polygon) : Bool :=
  let candidates := intersecting_borders point polygon
  let point_on_border := candidates.any (fun b =>
    let mn := min b.start.y b.stop.y
    let mx := max b.start.y b.stop.y
    decide (point.x = b.start.x) && decide (point.y ≥ mn) && decide (point.y ≤ mx))
  if point_on_border then true
  else
    let remaining := candidates.filter (fun b =>
      if point.y = b.start.y then
        !(polygon.concave_vertices.any (fun v => decide (v = b.start)))
      else if point.y = b.stop.y then
        !(polygon.concave_vertices.any (fun v => decide (v = b.stop)))
      else true)
    decide (remaining.length % 2 = 1)

/-- `rect_in_bounds`: short-circuit on the two implied corners, then require
every perimeter lattice point to be in bounds. -/
def rect_in_bounds (rect : Rect) (polygon : Polygon) : Bool :=
  let top_right : Point := ⟨rect.bottom_right.x, rect.top_left.y⟩
  let bottom_left : Point := ⟨rect.top_left.x, rect.bottom_right.y⟩
  if !point_in_bounds top_right polygon || !point_in_bounds bottom_left polygon then
    false
  else
    rect.perimeter_points.all (fun p => point_in_bounds p polygon)

/-- Modelled on the spec's contract for 4.3: true iff every lattice point on
the rectangle's perimeter is inside-or-on the polygon (no corner
short-circuit). -/
def rect_in_bounds_full (rect : Rect) (polygon : Polygon) : Bool :=
  rect.perimeter_points.all (fun p => point_in_bounds p polygon)

/-- itertools `combinations(2)`: all position pairs `(i, j)` with `i < j`, in
lexicographic order of positions. -/
def combinations2 : List Point → List (Point × Point)
  | [] => []
  | x :: xs => xs.map (fun y => (x, y)) ++ combinations2 xs

/-- `build_rects`: one candidate `Rect` per unordered pair of positions. -/
def build_rects (points : List Point) : List Rect :=
  (combinations2 points).map (fun ab => Rect.new ab.1 ab.2)

/-- The comparator of `all_rects.sort_by(|a, b| b.area.cmp(&a.area))`:
descending area. -/
def rectGE (a b : Rect) : Prop := b.area ≤ a.area

instance : DecidableRel rectGE :=
  fun a b => inferInstanceAs (Decidable (b.area ≤ a.area))

instance : IsTotal Rect rectGE := ⟨fun a b => le_total b.area a.area⟩

instance : IsTrans Rect rectGE := ⟨fun _ _ _ hab hbc => le_trans hbc hab⟩

/-- `solve` on the parsed vertex list.  `none` models the three panics, in
source order: `Polygon::new` (runs before any iterator is consumed), the
`unwrap` computing `max_rect_area` on an empty candidate list, and the
`unwrap` after the filter scan when no candidate passes containment.
`filter(..).next()` is `find?`. -/
def solve (points : List Point) : Option Answer :=
  let all_rects := build_rects points
  match Polygon.new points with
  | none => none
  | some polygon =>
    let sorted := all_rects.insertionSort rectGE
    match sorted.head? with
    | none => none
    | some rmax =>
      match sorted.find? (fun r => rect_in_bounds r polygon) with
      | none => none
      | some rbest => some ⟨rmax.area, rbest.area⟩

/-- The vertex list of the octagon from the source's tests. -/
def octagonPoints : List Point :=
  [⟨7, 1⟩, ⟨11, 1⟩, ⟨11, 7⟩, ⟨9, 7⟩, ⟨9, 5⟩, ⟨2, 5⟩, ⟨2, 3⟩, ⟨7, 3⟩]

/-- The polygon built from the octagon vertex list (construction succeeds, so
the default is never used). -/
def octagonPolygon : Polygon := (Polygon.new octagonPoints).getD ⟨[], []⟩

/-- A geometrically simple rectilinear square, but listed counterclockwise
(in the screen convention the source's turn table assumes clockwise order). -/
def ccwSquarePoints : List Point := [⟨0, 0⟩, ⟨0, 5⟩, ⟨5, 5⟩, ⟨5, 0⟩]

/-- The polygon the source builds from the counterclockwise square (all four
turns land in the table, so construction succeeds). -/
def ccwSquarePolygon : Polygon := (Polygon.new ccwSquarePoints).getD ⟨[], []⟩

theorem Point.mk_eta (p : Point) : (Point.mk p.x p.y) = p := rfl

/-- The inclusive coordinate range walked by `Line::points` contains both
endpoint coordinates. -/
theorem mem_range_incl {a b c : Nat} (h : c = a ∨ c = b) :
    c ∈ List.range' (min a b) (max a b + 1 - min a b) := by
  rw [List.mem_range'_1]
  have h1 := le_max_left a b
  have h2 := le_max_right a b
  have h3 := min_le_left a b
  have h4 := min_le_right a b
  rcases h with h | h <;> omega

/-- Every line contains its own `start`. -/
theorem start_mem_points (l : Line) : l.start ∈ l.points := by
  by_cases hx : l.start.x = l.stop.x
  · simp only [Line.points, if_pos hx]
    exact List.mem_map.mpr ⟨l.start.y, mem_range_incl (Or.inl rfl), rfl⟩
  · simp only [Line.points, if_neg hx]
    exact List.mem_map.mpr ⟨l.start.x, mem_range_incl (Or.inl rfl), rfl⟩

/-- An axis-aligned line contains its own `stop`. -/
theorem stop_mem_points (l : Line) (h : l.start.x = l.stop.x ∨ l.start.y = l.stop.y) :
    l.stop ∈ l.points := by
  by_cases hx : l.start.x = l.stop.x
  · simp only [Line.points, if_pos hx]
    refine List.mem_map.mpr ⟨l.stop.y, mem_range_incl (Or.inr rfl), ?_⟩
    rw [hx]
  · have hy : l.start.y = l.stop.y := h.resolve_left hx
    simp only [Line.points, if_neg hx]
    refine List.mem_map.mpr ⟨l.stop.x, mem_range_incl (Or.inr rfl), ?_⟩
    rw [hy]

/-- The lattice points of a vertical line are exactly the points sharing its
x at a y inside its span. -/
theorem mem_points_vertical_iff (l : Line) (hx : l.start.x = l.stop.x) (p : Point) :
    p ∈ l.points ↔
      p.x = l.start.x ∧ min l.start.y l.stop.y ≤ p.y ∧ p.y ≤ max l.start.y l.stop.y := by
  have hmm := min_le_max (a := l.start.y) (b := l.stop.y)
  simp only [Line.points, if_pos hx, List.mem_map, List.mem_range'_1]
  constructor
  · rintro ⟨y, hy, rfl⟩
    obtain ⟨hy1, hy2⟩ := hy
    refine ⟨rfl, ?_, ?_⟩
    · show min l.start.y l.stop.y ≤ y
      omega
    · show y ≤ max l.start.y l.stop.y
      omega
  · rintro ⟨hpx, h1, h2⟩
    refine ⟨p.y, ⟨h1, by omega⟩, ?_⟩
    rw [← hpx]

/-- Any point of any vertical border of a polygon is accepted by
`point_in_bounds` through the on-border early return. -/
theorem vertical_border_point_in_bounds (polygon : Polygon) (b : Line)
    (hb : b ∈ polygon.borders) (hx : b.start.x = b.stop.x) (p : Point)
    (hpx : p.x = b.start.x) (hymin : min b.start.y b.stop.y ≤ p.y)
    (hymax : p.y ≤ max b.start.y b.stop.y) :
    point_in_bounds p polygon = true := by
  cases p with
  | mk px py =>
    simp only at hpx hymin hymax
    subst hpx
    have hmem : b ∈ intersecting_borders ⟨b.start.x, py⟩ polygon := by
      simp only [intersecting_borders, List.mem_filter, Bool.and_eq_true, decide_eq_true_eq]
      exact ⟨⟨⟨hb, hx⟩, le_refl _⟩, hymin, hymax⟩
    have hany : (intersecting_borders ⟨b.start.x, py⟩ polygon).any (fun bb =>
        decide ((⟨b.start.x, py⟩ : Point).x = bb.start.x) &&
        decide ((⟨b.start.x, py⟩ : Point).y ≥ min bb.start.y bb.stop.y) &&
        decide ((⟨b.start.x, py⟩ : Point).y ≤ max bb.start.y bb.stop.y)) = true := by
      rw [List.any_eq_true]
      refine ⟨b, hmem, ?_⟩
      simp only [Bool.and_eq_true, decide_eq_true_eq]
      exact ⟨⟨trivial, hymin⟩, hymax⟩
    simp only [point_in_bounds, hany, if_true]

/-- C1: on the octagon vertex list, `solve` reports part1 = 50 (largest
corner-pair rectangle, no containment constraint) and part2 = 24 (largest
corner-pair rectangle whose whole perimeter stays inside-or-on the polygon). -/
theorem solve_octagon_eq : solve octagonPoints = some ⟨50, 24⟩ := by decide

/-- C7: the turn classification used by `Polygon.new` matches the documented
table on all sixteen direction pairs: the four clockwise turns are convex
(`some false`, vertex dropped), the four counterclockwise turns are concave
(`some true`, vertex kept), and each of the eight remaining pairs lands in the
fatal impossible-turn branch (`none`), never a silent default. -/
theorem turnConcave_table :
    turnConcave .Right .Down = some false ∧ turnConcave .Right .Up = some true ∧
    turnConcave .Down .Left = some false ∧ turnConcave .Down .Right = some true ∧
    turnConcave .Left .Down = some true ∧ turnConcave .Left .Up = some false ∧
    turnConcave .Up .Left = some true ∧ turnConcave .Up .Right = some false ∧
    turnConcave .Right .Right = none ∧ turnConcave .Right .Left = none ∧
    turnConcave .Left .Left = none ∧ turnConcave .Left .Right = none ∧
    turnConcave .Up .Up = none ∧ turnConcave .Up .Down = none ∧
    turnConcave .Down .Down = none ∧ turnConcave .Down .Up = none := by
  decide

/-- C3: a border is a candidate crossing for a query point exactly when it is
vertical, starts at or left of the point, and its y-span contains the point's
y; in particular no horizontal border is ever a candidate. -/
theorem mem_intersecting_borders (point : Point) (polygon : Polygon) (b : Line) :
    b ∈ intersecting_borders point polygon ↔
      b ∈ polygon.borders ∧ b.start.x = b.stop.x ∧ b.start.x ≤ point.x ∧
        min b.start.y b.stop.y ≤ point.y ∧ point.y ≤ max b.start.y b.stop.y := by
  simp [intersecting_borders, List.mem_filter, and_assoc]
  tauto

/-- Witness for C3 at a concrete border of the octagon polygon. -/
theorem mem_intersecting_borders_witness :
    Line.mk ⟨11, 1⟩ ⟨11, 7⟩ ∈ intersecting_borders ⟨11, 3⟩ octagonPolygon ↔
      Line.mk ⟨11, 1⟩ ⟨11, 7⟩ ∈ octagonPolygon.borders ∧ (11 : Nat) = 11 ∧
        (11 : Nat) ≤ 11 ∧ min 1 7 ≤ (3 : Nat) ∧ (3 : Nat) ≤ max 1 7 :=
  mem_intersecting_borders ⟨11, 3⟩ octagonPolygon (Line.mk ⟨11, 1⟩ ⟨11, 7⟩)

/-- C5: the corner short-circuit never changes the answer — `rect_in_bounds`
agrees with the plain full-perimeter walk, because the two implied corners
are themselves perimeter points. -/
theorem rect_in_bounds_eq_full (rect : Rect) (polygon : Polygon) :
    rect_in_bounds rect polygon = rect_in_bounds_full rect polygon := by
  have htr : (⟨rect.bottom_right.x, rect.top_left.y⟩ : Point) ∈ rect.perimeter_points := by
    simp only [Rect.perimeter_points, Rect.lines, List.flatMap_cons, List.flatMap_nil,
      List.append_nil, List.mem_append]
    exact Or.inl (stop_mem_points ⟨rect.top_left, ⟨rect.bottom_right.x, rect.top_left.y⟩⟩
      (Or.inr rfl))
  have hbl : (⟨rect.top_left.x, rect.bottom_right.y⟩ : Point) ∈ rect.perimeter_points := by
    simp only [Rect.perimeter_points, Rect.lines, List.flatMap_cons, List.flatMap_nil,
      List.append_nil, List.mem_append]
    exact Or.inr (Or.inr (Or.inr (start_mem_points
      ⟨⟨rect.top_left.x, rect.bottom_right.y⟩, rect.top_left⟩)))
  cases h1 : point_in_bounds ⟨rect.bottom_right.x, rect.top_left.y⟩ polygon
  · have hfull : rect_in_bounds_full rect polygon = false := by
      simp only [rect_in_bounds_full]
      exact List.all_eq_false.mpr ⟨_, htr, by simp [h1]⟩
    rw [hfull]
    simp [rect_in_bounds, h1]
  · cases h2 : point_in_bounds ⟨rect.top_left.x, rect.bottom_right.y⟩ polygon
    · have hfull : rect_in_bounds_full rect polygon = false := by
        simp only [rect_in_bounds_full]
        exact List.all_eq_false.mpr ⟨_, hbl, by simp [h2]⟩
      rw [hfull]
      simp [rect_in_bounds, h2]
    · simp [rect_in_bounds, rect_in_bounds_full, h1, h2]

/-- Witness for C5 at a concrete rectangle of the octagon. -/
theorem rect_in_bounds_eq_full_witness :
    rect_in_bounds (Rect.new ⟨2, 5⟩ ⟨9, 7⟩) octagonPolygon =
      rect_in_bounds_full (Rect.new ⟨2, 5⟩ ⟨9, 7⟩) octagonPolygon :=
  rect_in_bounds_eq_full (Rect.new ⟨2, 5⟩ ⟨9, 7⟩) octagonPolygon

/-- C9: the degenerate rectangle on a single point is contained exactly when
that point passes the point-in-polygon test. -/
theorem rect_in_bounds_degenerate (P : Point) (polygon : Polygon) :
    rect_in_bounds (Rect.new P P) polygon = point_in_bounds P polygon := by
  cases h : point_in_bounds P polygon <;>
    simp [rect_in_bounds, Rect.new, Rect.perimeter_points, Rect.lines, Line.points,
      Point.mk_eta, Nat.add_sub_cancel_left, List.range'_one, h]

/-- Witness for C9 at the octagon's concave vertex `(7,3)`. -/
theorem rect_in_bounds_degenerate_witness :
    rect_in_bounds (Rect.new ⟨7, 3⟩ ⟨7, 3⟩) octagonPolygon =
      point_in_bounds ⟨7, 3⟩ octagonPolygon :=
  rect_in_bounds_degenerate ⟨7, 3⟩ octagonPolygon

/-- C8: rectangle containment does not depend on which corner is given first:
swapping the two corners swaps the two implied corners and cyclically permutes
the four perimeter segments, leaving both the short-circuit and the perimeter
walk unchanged. -/
theorem rect_in_bounds_swap (A B : Point) (polygon : Polygon) :
    rect_in_bounds (Rect.new A B) polygon = rect_in_bounds (Rect.new B A) polygon := by
  cases h1 : point_in_bounds ⟨B.x, A.y⟩ polygon <;>
  cases h2 : point_in_bounds ⟨A.x, B.y⟩ polygon <;>
    simp [rect_in_bounds, Rect.new, Rect.perimeter_points, Rect.lines,
      List.flatMap_cons, List.all_append, h1, h2, Bool.and_comm, Bool.and_assoc,
      Bool.and_left_comm]

/-- Witness for C8 at a concrete corner pair of the octagon. -/
theorem rect_in_bounds_swap_witness :
    rect_in_bounds (Rect.new ⟨2, 3⟩ ⟨11, 1⟩) octagonPolygon =
      rect_in_bounds (Rect.new ⟨11, 1⟩ ⟨2, 3⟩) octagonPolygon :=
  rect_in_bounds_swap ⟨2, 3⟩ ⟨11, 1⟩ octagonPolygon

/-- Counterexample to C6 as stated: the counterclockwise square is a simple
rectilinear polygon and `Polygon.new` accepts it, yet the point `(2,0)`,
which lies on its bottom border line, is classified outside — every vertex is
put in the concave set, so the single candidate crossing is discarded and the
parity count is even. -/
theorem ccw_boundary_misclassified :
    Polygon.new ccwSquarePoints = some ccwSquarePolygon ∧
    Line.mk ⟨5, 0⟩ ⟨0, 0⟩ ∈ ccwSquarePolygon.borders ∧
    (⟨2, 0⟩ : Point) ∈ (Line.mk ⟨5, 0⟩ ⟨0, 0⟩).points ∧
    point_in_bounds ⟨2, 0⟩ ccwSquarePolygon = false := by
  decide

/-- C6 amended: boundary inclusion holds unconditionally for every point of
every vertical border of any polygon (the on-border early return fires), and
for the clockwise example octagon every point of every border line — in
particular `(9,1)` and the concave vertex `(7,3)` — is classified inside.
The unrestricted statement over horizontal borders fails for
counterclockwise-wound vertex lists, which construction accepts. -/
theorem point_in_bounds_boundary :
    (∀ (polygon : Polygon) (b : Line), b ∈ polygon.borders → b.start.x = b.stop.x →
      ∀ p ∈ b.points, point_in_bounds p polygon = true) ∧
    (∀ b ∈ octagonPolygon.borders, ∀ p ∈ b.points,
      point_in_bounds p octagonPolygon = true) := by
  constructor
  · intro polygon b hb hx p hp
    obtain ⟨hpx, h1, h2⟩ := (mem_points_vertical_iff b hx p).mp hp
    exact vertical_border_point_in_bounds polygon b hb hx p hpx h1 h2
  · decide

/-- Witness for the amended C6 at a vertical border of the octagon. -/
theorem point_in_bounds_boundary_witness :
    (Line.mk ⟨11, 1⟩ ⟨11, 7⟩ ∈ octagonPolygon.borders ∧
      (⟨11, 4⟩ : Point) ∈ (Line.mk ⟨11, 1⟩ ⟨11, 7⟩).points) ∧
    point_in_bounds ⟨11, 4⟩ octagonPolygon = true :=
  ⟨⟨by decide, by decide⟩,
    point_in_bounds_boundary.1 octagonPolygon (Line.mk ⟨11, 1⟩ ⟨11, 7⟩)
      (by decide) rfl ⟨11, 4⟩ (by decide)⟩

/-- `combinations2` enumerates exactly the pairs of values at positions
`i < j`. -/
theorem mem_combinations2 : ∀ (l : List Point) (ab : Point × Point),
    ab ∈ combinations2 l ↔
      ∃ i j, ∃ hj : j < l.length, ∃ hi : i < j,
        ab = (l.get ⟨i, hi.trans hj⟩, l.get ⟨j, hj⟩)
  | [], ab => by simp [combinations2]
  | x :: xs, ab => by
    rw [combinations2, List.mem_append, List.mem_map, mem_combinations2 xs ab]
    constructor
    · rintro (⟨y, hy, rfl⟩ | ⟨i, j, hj, hi, rfl⟩)
      · obtain ⟨⟨j, hj⟩, rfl⟩ := List.mem_iff_get.mp hy
        exact ⟨0, j + 1, Nat.succ_lt_succ hj, Nat.succ_pos j, rfl⟩
      · exact ⟨i + 1, j + 1, Nat.succ_lt_succ hj, Nat.succ_lt_succ hi, rfl⟩
    · rintro ⟨i, j, hj, hi, rfl⟩
      cases i with
      | zero =>
        cases j with
        | zero => omega
        | succ j1 =>
          exact Or.inl ⟨xs.get ⟨j1, Nat.lt_of_succ_lt_succ hj⟩, List.get_mem _ _ _, rfl⟩
      | succ i1 =>
        cases j with
        | zero => omega
        | succ j1 =>
          exact Or.inr
            ⟨i1, j1, Nat.lt_of_succ_lt_succ hj, Nat.lt_of_succ_lt_succ hi, rfl⟩

/-- `combinations2` has `C(n,2)` elements. -/
theorem combinations2_length : ∀ (l : List Point),
    (combinations2 l).length = Nat.choose l.length 2
  | [] => rfl
  | x :: xs => by
    rw [combinations2, List.length_append, List.length_map, combinations2_length xs,
      List.length_cons]
    have h2 : (2 : Nat) = 1 + 1 := rfl
    rw [h2, Nat.choose_succ_succ, Nat.choose_one_right]

/-- C10: build_rects enumerates exactly the `C(n,2)` unordered pairs of
distinct positions of the vertex list (never pairing a position with itself);
a degenerate single-point candidate therefore requires equal coordinates at
two different positions, and fewer than two vertices give no candidates. -/
theorem build_rects_pairs (pts : List Point) :
    (build_rects pts).length = Nat.choose pts.length 2 ∧
    (∀ r, r ∈ build_rects pts ↔
      ∃ i j, ∃ hj : j < pts.length, ∃ hi : i < j,
        r = Rect.new (pts.get ⟨i, hi.trans hj⟩) (pts.get ⟨j, hj⟩)) ∧
    (∀ r ∈ build_rects pts, r.top_left = r.bottom_right →
      ∃ i j, ∃ hj : j < pts.length, ∃ hi : i < j,
        pts.get ⟨i, hi.trans hj⟩ = pts.get ⟨j, hj⟩) ∧
    (pts.length < 2 → build_rects pts = []) := by
  have hmem : ∀ r, r ∈ build_rects pts ↔
      ∃ i j, ∃ hj : j < pts.length, ∃ hi : i < j,
        r = Rect.new (pts.get ⟨i, hi.trans hj⟩) (pts.get ⟨j, hj⟩) := by
    intro r
    rw [build_rects, List.mem_map]
    constructor
    · rintro ⟨ab, hab, rfl⟩
      obtain ⟨i, j, hj, hi, rfl⟩ := (mem_combinations2 pts ab).mp hab
      exact ⟨i, j, hj, hi, rfl⟩
    · rintro ⟨i, j, hj, hi, rfl⟩
      exact ⟨(pts.get ⟨i, hi.trans hj⟩, pts.get ⟨j, hj⟩),
        (mem_combinations2 pts _).mpr ⟨i, j, hj, hi, rfl⟩, rfl⟩
  refine ⟨?_, hmem, ?_, ?_⟩
  · rw [build_rects, List.length_map, combinations2_length]
  · intro r hr heq
    obtain ⟨i, j, hj, hi, rfl⟩ := (hmem r).mp hr
    exact ⟨i, j, hj, hi, heq⟩
  · intro h
    match pts, h with
    | [], _ => rfl
    | [x], _ => rfl

/-- Witness for C10 on a concrete two-vertex list. -/
theorem build_rects_pairs_witness :
    (build_rects [⟨0, 0⟩, ⟨1, 1⟩]).length =
        Nat.choose ([(⟨0, 0⟩ : Point), ⟨1, 1⟩].length) 2 ∧
    (∀ r, r ∈ build_rects [⟨0, 0⟩, ⟨1, 1⟩] ↔
      ∃ i j, ∃ hj : j < [(⟨0, 0⟩ : Point), ⟨1, 1⟩].length, ∃ hi : i < j,
        r = Rect.new ([(⟨0, 0⟩ : Point), ⟨1, 1⟩].get ⟨i, hi.trans hj⟩)
          ([(⟨0, 0⟩ : Point), ⟨1, 1⟩].get ⟨j, hj⟩)) ∧
    (∀ r ∈ build_rects [⟨0, 0⟩, ⟨1, 1⟩], r.top_left = r.bottom_right →
      ∃ i j, ∃ hj : j < [(⟨0, 0⟩ : Point), ⟨1, 1⟩].length, ∃ hi : i < j,
        [(⟨0, 0⟩ : Point), ⟨1, 1⟩].get ⟨i, hi.trans hj⟩ =
          [(⟨0, 0⟩ : Point), ⟨1, 1⟩].get ⟨j, hj⟩) ∧
    ([(⟨0, 0⟩ : Point), ⟨1, 1⟩].length < 2 → build_rects [⟨0, 0⟩, ⟨1, 1⟩] = []) :=
  build_rects_pairs [⟨0, 0⟩, ⟨1, 1⟩]

/-- In a list sorted by descending area, the first element passing a predicate
passes it, belongs to the list, and has maximal area among passing elements. -/
theorem find_first_in_sorted :
    ∀ (l : List Rect) (p : Rect → Bool) (r : Rect),
      l.Pairwise rectGE → l.find? p = some r →
      p r = true ∧ r ∈ l ∧ ∀ s ∈ l, p s = true → s.area ≤ r.area
  | [], p, r => by
    intro _ h
    simp at h
  | x :: xs, p, r => by
    intro hpw hf
    rw [List.find?_cons] at hf
    obtain ⟨hx, hpwtail⟩ := List.pairwise_cons.mp hpw
    cases hpx : p x with
    | true =>
      simp only [hpx] at hf
      obtain rfl : x = r := Option.some.inj hf
      refine ⟨hpx, List.mem_cons_self x xs, ?_⟩
      intro s hs _
      rcases List.mem_cons.mp hs with rfl | hs
      · exact le_refl _
      · exact hx s hs
    | false =>
      simp only [hpx] at hf
      obtain ⟨hpr, hmem, hmax⟩ := find_first_in_sorted xs p r hpwtail hf
      refine ⟨hpr, List.mem_cons_of_mem x hmem, ?_⟩
      intro s hs hps
      rcases List.mem_cons.mp hs with rfl | hs
      · rw [hpx] at hps
        exact absurd hps (by simp)
      · exact hmax s hs hps

/-- C2: whenever `solve` completes, its second answer is the area of a
candidate rectangle that passes containment, and no passing candidate has a
larger area — the largest-first scan is optimal. -/
theorem solve_part2_max (pts : List Point) (polygon : Polygon) (ans : Answer)
    (hpoly : Polygon.new pts = some polygon) (hans : solve pts = some ans) :
    (∃ r ∈ build_rects pts, rect_in_bounds r polygon = true ∧ r.area = ans.part2) ∧
    (∀ r ∈ build_rects pts, rect_in_bounds r polygon = true → r.area ≤ ans.part2) := by
  simp only [solve, hpoly] at hans
  cases hh : ((build_rects pts).insertionSort rectGE).head? with
  | none => simp [hh] at hans
  | some rmax =>
    cases hfind : ((build_rects pts).insertionSort rectGE).find?
        (fun r => rect_in_bounds r polygon) with
    | none => simp [hh, hfind] at hans
    | some rbest =>
      simp only [hh, hfind, Option.some.injEq] at hans
      have hpw : ((build_rects pts).insertionSort rectGE).Pairwise rectGE :=
        List.sorted_insertionSort rectGE (build_rects pts)
      have hperm := List.perm_insertionSort rectGE (build_rects pts)
      obtain ⟨hpr, hmem, hmax⟩ := find_first_in_sorted _ _ rbest hpw hfind
      subst hans
      constructor
      · exact ⟨rbest, hperm.mem_iff.mp hmem, hpr, rfl⟩
      · intro r hr hprr
        exact hmax r (hperm.mem_iff.mpr hr) hprr

/-- Witness for C2 on the octagon input. -/
theorem solve_part2_max_witness :
    (Polygon.new octagonPoints = some octagonPolygon ∧
      solve octagonPoints = some ⟨50, 24⟩) ∧
    (∃ r ∈ build_rects octagonPoints,
        rect_in_bounds r octagonPolygon = true ∧ r.area = (24 : Nat)) ∧
    (∀ r ∈ build_rects octagonPoints,
        rect_in_bounds r octagonPolygon = true → r.area ≤ (24 : Nat)) :=
  ⟨⟨by decide, by decide⟩,
    solve_part2_max octagonPoints octagonPolygon ⟨50, 24⟩ (by decide) (by decide)⟩

/-- When the classification pass succeeds, no consecutive border pair was an
impossible turn. -/
theorem collectConcave_forall :
    ∀ (l : List (Line × Line)) (cv : List Point), collectConcave l = some cv →
      ∀ fs ∈ l, turnConcave (Direction.ofLine fs.1) (Direction.ofLine fs.2) ≠ none
  | [], cv => by
    intro _ fs hfs
    simp at hfs
  | (f, s) :: rest, cv => by
    intro h fs hfs
    rw [collectConcave] at h
    cases ht : turnConcave (Direction.ofLine f) (Direction.ofLine s) with
    | none =>
      rw [ht] at h
      simp at h
    | some concave =>
      rw [ht] at h
      cases hrec : collectConcave rest with
      | none =>
        rw [hrec] at h
        simp at h
      | some tail =>
        rcases List.mem_cons.mp hfs with rfl | hfs
        · rw [ht]
          simp
        · exact collectConcave_forall rest tail hrec fs hfs

/-- A line's direction is vertical (`Up`/`Down`) exactly when its endpoints
share an x-coordinate. -/
theorem ofLine_vertical_iff (l : Line) :
    (Direction.ofLine l = .Up ∨ Direction.ofLine l = .Down) ↔ l.start.x = l.stop.x := by
  by_cases hx : l.start.x = l.stop.x
  · by_cases hy : l.stop.y > l.start.y <;> simp [Direction.ofLine, hx, hy]
  · by_cases hx2 : l.stop.x > l.start.x <;> simp [Direction.ofLine, hx, hx2]

/-- A turn accepted by the table always pairs one vertical direction with one
horizontal one. -/
theorem turnConcave_mixed {d1 d2 : Direction} (h : turnConcave d1 d2 ≠ none) :
    ((d1 = .Up ∨ d1 = .Down) ∧ (d2 = .Left ∨ d2 = .Right)) ∨
    ((d1 = .Left ∨ d1 = .Right) ∧ (d2 = .Up ∨ d2 = .Down)) := by
  cases d1 <;> cases d2 <;> simp_all [turnConcave]

/-- Every perimeter point of a rectangle whose two given corners share an
x-coordinate lies on the vertical segment between them. -/
theorem perimeter_vertical {A B : Point} (hx : A.x = B.x) (p : Point)
    (hp : p ∈ (Rect.new A B).perimeter_points) :
    p.x = A.x ∧ min A.y B.y ≤ p.y ∧ p.y ≤ max A.y B.y := by
  have h1 := min_le_left A.y B.y
  have h2 := min_le_right A.y B.y
  have h3 := le_max_left A.y B.y
  have h4 := le_max_right A.y B.y
  simp only [Rect.perimeter_points, Rect.lines, Rect.new, List.flatMap_cons,
    List.flatMap_nil, List.append_nil, List.mem_append] at hp
  rcases hp with hp | hp | hp | hp
  · obtain ⟨hpx, hmn, hmx⟩ :=
      (mem_points_vertical_iff ⟨A, ⟨B.x, A.y⟩⟩ hx p).mp hp
    simp only at hpx hmn hmx
    omega
  · obtain ⟨hpx, hmn, hmx⟩ :=
      (mem_points_vertical_iff ⟨⟨B.x, A.y⟩, B⟩ rfl p).mp hp
    simp only at hpx hmn hmx
    omega
  · obtain ⟨hpx, hmn, hmx⟩ :=
      (mem_points_vertical_iff ⟨B, ⟨A.x, B.y⟩⟩ hx.symm p).mp hp
    simp only at hpx hmn hmx
    omega
  · obtain ⟨hpx, hmn, hmx⟩ :=
      (mem_points_vertical_iff ⟨⟨A.x, B.y⟩, A⟩ rfl p).mp hp
    simp only at hpx hmn hmx
    omega

/-- A candidate rectangle degenerated onto a vertical border of the polygon
always passes containment: its whole perimeter lies on that border. -/
theorem vertical_segment_rect_passes (polygon : Polygon) (b : Line)
    (hb : b ∈ polygon.borders) (hx : b.start.x = b.stop.x) (A B : Point)
    (hAB : A = b.start ∧ B = b.stop ∨ A = b.stop ∧ B = b.start) :
    rect_in_bounds (Rect.new A B) polygon = true := by
  have hABx : A.x = B.x := by
    rcases hAB with ⟨rfl, rfl⟩ | ⟨rfl, rfl⟩
    · exact hx
    · exact hx.symm
  have hAx : A.x = b.start.x := by
    rcases hAB with ⟨rfl, rfl⟩ | ⟨rfl, rfl⟩
    · rfl
    · exact hx.symm
  have hspanmin : min A.y B.y = min b.start.y b.stop.y := by
    rcases hAB with ⟨rfl, rfl⟩ | ⟨rfl, rfl⟩
    · rfl
    · exact min_comm _ _
  have hspanmax : max A.y B.y = max b.start.y b.stop.y := by
    rcases hAB with ⟨rfl, rfl⟩ | ⟨rfl, rfl⟩
    · rfl
    · exact max_comm _ _
  have hpib : ∀ q : Point, q.x = A.x → min A.y B.y ≤ q.y → q.y ≤ max A.y B.y →
      point_in_bounds q polygon = true := by
    intro q hqx hq1 hq2
    refine vertical_border_point_in_bounds polygon b hb hx q (by rw [hqx, hAx]) ?_ ?_
    · rw [← hspanmin]
      exact hq1
    · rw [← hspanmax]
      exact hq2
  have htr : point_in_bounds ⟨B.x, A.y⟩ polygon = true :=
    hpib ⟨B.x, A.y⟩ hABx.symm (min_le_left _ _) (le_max_left _ _)
  have hbl : point_in_bounds ⟨A.x, B.y⟩ polygon = true :=
    hpib ⟨A.x, B.y⟩ rfl (min_le_right _ _) (le_max_right _ _)
  have hall : (Rect.new A B).perimeter_points.all
      (fun p => point_in_bounds p polygon) = true := by
    rw [List.all_eq_true]
    intro p hp
    obtain ⟨hpx, hp1, hp2⟩ := perimeter_vertical hABx p hp
    exact hpib p hpx hp1 hp2
  simp only [rect_in_bounds, Rect.new] at htr hbl hall ⊢
  rw [htr, hbl]
  simpa using hall

/-- Whenever `Polygon::new` accepts a vertex list, the borders alternate
between vertical and horizontal, so some candidate rectangle degenerates onto
a vertical border and passes containment.  The no-candidate-passes situation
of spec 4.4 therefore never arises on a constructible input. -/
theorem polygon_has_passing_candidate :
    ∀ (pts : List Point) (polygon : Polygon), Polygon.new pts = some polygon →
      ∃ r ∈ build_rects pts, rect_in_bounds r polygon = true := by
  intro pts polygon h
  cases pts with
  | nil => simp [Polygon.new] at h
  | cons p ps =>
    simp only [Polygon.new] at h
    cases hcc : collectConcave (cyclicPairs
        ((cyclicPairs (p :: ps)).map (fun ab => Line.mk ab.1 ab.2))) with
    | none =>
      rw [hcc] at h
      simp at h
    | some cv =>
      rw [hcc] at h
      obtain rfl : (⟨(cyclicPairs (p :: ps)).map (fun ab => Line.mk ab.1 ab.2), cv⟩ :
          Polygon) = polygon := Option.some.inj h
      have hcls := collectConcave_forall _ _ hcc
      cases ps with
      | nil =>
        exfalso
        have hpair : (Line.mk p p, Line.mk p p) ∈ cyclicPairs
            ((cyclicPairs [p]).map (fun ab => Line.mk ab.1 ab.2)) := by
          simp [cyclicPairs, windows2]
        have hnn := hcls _ hpair
        have hup : Direction.ofLine (Line.mk p p) = .Up := by
          simp [Direction.ofLine]
        rw [hup] at hnn
        exact hnn rfl
      | cons q qs =>
        cases qs with
        | nil =>
          exfalso
          have hpair : (Line.mk p q, Line.mk q p) ∈ cyclicPairs
              ((cyclicPairs [p, q]).map (fun ab => Line.mk ab.1 ab.2)) := by
            simp [cyclicPairs, windows2]
          have hmx := turnConcave_mixed (hcls _ hpair)
          rcases hmx with ⟨hd1, hd2⟩ | ⟨hd1, hd2⟩
          · have hv1 : p.x = q.x := (ofLine_vertical_iff (Line.mk p q)).mp hd1
            have hv2 : q.x = p.x → Direction.ofLine (Line.mk q p) = .Up ∨
                Direction.ofLine (Line.mk q p) = .Down :=
              fun hc => (ofLine_vertical_iff (Line.mk q p)).mpr hc
            rcases hv2 hv1.symm with hc | hc <;> rcases hd2 with hd | hd <;>
              rw [hc] at hd <;> simp at hd
          · have hv1 : q.x = p.x := (ofLine_vertical_iff (Line.mk q p)).mp hd2
            have hv2 : p.x = q.x → Direction.ofLine (Line.mk p q) = .Up ∨
                Direction.ofLine (Line.mk p q) = .Down :=
              fun hc => (ofLine_vertical_iff (Line.mk p q)).mpr hc
            rcases hv2 hv1.symm with hc | hc <;> rcases hd1 with hd | hd <;>
              rw [hc] at hd <;> simp at hd
        | cons r rs =>
          have hpair : (Line.mk p q, Line.mk q r) ∈ cyclicPairs
              ((cyclicPairs (p :: q :: r :: rs)).map (fun ab => Line.mk ab.1 ab.2)) :=
            List.mem_cons_self _ _
          have hmx := turnConcave_mixed (hcls _ hpair)
          have hvert : p.x = q.x ∨ q.x = r.x := by
            rcases hmx with ⟨hd1, _⟩ | ⟨_, hd2⟩
            · exact Or.inl ((ofLine_vertical_iff (Line.mk p q)).mp hd1)
            · exact Or.inr ((ofLine_vertical_iff (Line.mk q r)).mp hd2)
          rcases hvert with hx | hx
          · refine ⟨Rect.new p q, List.mem_cons_self _ _, ?_⟩
            refine vertical_segment_rect_passes _ (Line.mk p q)
              (List.mem_cons_self _ _) hx p q (Or.inl ⟨rfl, rfl⟩)
          · refine ⟨Rect.new q r, ?_, ?_⟩
            · refine List.mem_map.mpr ⟨(q, r), ?_, rfl⟩
              rw [combinations2, List.mem_append]
              exact Or.inr (List.mem_cons_self _ _)
            · refine vertical_segment_rect_passes _ (Line.mk q r)
                (List.mem_cons_of_mem _ (List.mem_cons_self _ _)) hx q r
                (Or.inl ⟨rfl, rfl⟩)

/-- Consequently `solve` never reaches either of its `unwrap` aborts once
polygon construction has succeeded: the candidate list is nonempty and the
largest-first scan always finds a passing rectangle. -/
theorem solve_completes (pts : List Point) (polygon : Polygon)
    (h : Polygon.new pts = some polygon) : ∃ a, solve pts = some a := by
  obtain ⟨r, hr, hpass⟩ := polygon_has_passing_candidate pts polygon h
  have hperm := List.perm_insertionSort rectGE (build_rects pts)
  have hrs : r ∈ (build_rects pts).insertionSort rectGE := hperm.mem_iff.mpr hr
  cases hsorted : (build_rects pts).insertionSort rectGE with
  | nil =>
    rw [hsorted] at hrs
    simp at hrs
  | cons x xs =>
    rw [hsorted] at hrs
    have hfind : ∃ y, (x :: xs).find? (fun s => rect_in_bounds s polygon) = some y := by
      rw [← Option.isSome_iff_exists, List.find?_isSome]
      exact ⟨r, hrs, hpass⟩
    obtain ⟨y, hy⟩ := hfind
    refine ⟨⟨x.area, y.area⟩, ?_⟩
    simp only [solve, h, hsorted, hy, List.head?_cons]

end Problem9
